import Mathlib

/-!
Verification development for the cricket server (github.com/blakej11/cricket).

The Go sources are shallowly embedded: float64 quantities (seconds,
fractions, weights) become `ℚ`, `time.Time`/`time.Duration` nanosecond
counts become `ℤ`, Go slices become `List`, Go maps become association
lists or functions, and the process-wide `math/rand` generators become
oracle streams of rationals threaded through the functions that draw
from them.  Fatal paths (`log.Fatalf`, `log.Panicf`, slice-bound and
nil-interface panics) are modelled by returning `none`.
-/

/- ===================================================================
   internal/fileset (lease.go, third document: the current fileset
   package): File, Play, findReps, PickCarefully.
   =================================================================== -/

/-- A fileset `File`: location of an MP3 on a device (`Folder`, `File`)
and its duration in seconds (Go `float64`, modelled as `ℚ`). -/
structure File where
  folder : ℤ
  file : ℤ
  duration : ℚ
deriving DecidableEq

/-- A fileset `Play` command payload `(File, Reps, Delay, Jitter)`.
`Delay`/`Jitter` are durations, modelled in seconds as `ℚ`. -/
structure Play where
  file : File
  reps : ℤ
  delay : ℚ
  jitter : ℚ
deriving DecidableEq

/-- The Go zero value `Play{}` returned by `PickCarefully` when nothing
fits before the deadline. -/
def Play.zero : Play := ⟨⟨0, 0, 0⟩, 0, 0, 0⟩

/-- `Play.Duration`: `d := (File.Duration + Delay) * Reps`, minus one
`Delay` when `Reps > 0` (no delay after the last rep).  The Go function
computes in float64 seconds before converting to `time.Duration`; the
model stays in seconds. -/
def Play.durationQ (p : Play) : ℚ :=
  let delay := p.delay
  let d := (p.file.duration + delay) * (p.reps : ℚ)
  if 0 < p.reps then d - delay else d

/-- Go `files[rand.Int32N(int32(len(files)))]`: the random index is the
oracle `r`; out-of-range oracles fall back to the zero `File` (the Go
index is always in range). -/
def pickf (files : List File) (r : ℕ) : File :=
  files.getD r ⟨0, 0, 0⟩

/-- `findReps`: how many reps of `file` fit before `deadline`, with
`delay` between plays.  `remaining := max(deadline − now, 0) + delay`,
`fileDur := file.Duration + delay`, result `⌊remaining / fileDur⌋`. -/
def findReps (file : File) (deadline now delay : ℚ) : ℤ :=
  let remaining := max (deadline - now) 0 + delay
  let fileDur := file.duration + delay
  ⌊remaining / fileDur⌋

/-- The runtime instantiation of a file set (`fileset.Set`); the name
field is irrelevant to the claims and omitted. -/
structure FSet where
  files : List File
deriving DecidableEq

/-- `Set.PickCarefully(deadline, reps, delay, jitter)`.  `r1`/`r2` are
the oracle values of the two `Pick` calls (random indices).  NOTE: in
the Go source the retry branch declares a NEW variable
(`actualReps := min(reps, findReps(...))`), shadowing the outer
`actualReps`, so the final `return Play{File: file, Reps: actualReps, ...}`
still sees the outer value `0`; the model reproduces that shadowing
with the distinct name `actualReps2`. -/
def FSet.pickCarefully (fs : FSet) (deadline now : ℚ) (reps0 : ℤ)
    (delay jitter : ℚ) (r1 r2 : ℕ) : Play :=
  let reps := if reps0 = 0 then 1 else reps0
  let file := pickf fs.files r1
  let actualReps := min reps (findReps file deadline now delay)
  if actualReps = 0 then
    let remaining := max (deadline - now) 0
    let files := fs.files.filter (fun f => f.duration < remaining)
    if files.isEmpty then Play.zero
    else
      let file2 := pickf files r2
      let actualReps2 := min reps (findReps file2 deadline now delay)
      if actualReps2 = 0 then Play.zero
      else ⟨file2, actualReps, delay, jitter⟩
  else ⟨file, actualReps, delay, jitter⟩

/-- C5: for every Play `p`, `p.Duration() = (File.Duration + Delay) * Reps − Delay`
when `Reps > 0`, and `0` when `Reps = 0`. -/
theorem play_duration_formula (p : Play) :
    (0 < p.reps → p.durationQ = (p.file.duration + p.delay) * (p.reps : ℚ) - p.delay) ∧
    (p.reps = 0 → p.durationQ = 0) := by
  constructor
  · intro h
    simp [Play.durationQ, h]
  · intro h
    simp [Play.durationQ, h]

/-- Witness for C5 at two concrete plays: reps 2 and reps 0. -/
theorem play_duration_formula_witness :
    ((0 : ℤ) < 2 ∧ Play.durationQ ⟨⟨1, 2, 10⟩, 2, 3, 0⟩ = (10 + 3) * 2 - 3) ∧
    Play.durationQ ⟨⟨1, 2, 10⟩, 0, 3, 0⟩ = 0 := by
  refine ⟨⟨by norm_num, ?_⟩, ?_⟩
  · exact (play_duration_formula ⟨⟨1, 2, 10⟩, 2, 3, 0⟩).1 (by norm_num)
  · exact (play_duration_formula ⟨⟨1, 2, 10⟩, 0, 3, 0⟩).2 rfl

/-- C4 (code bug): with files 1/1 (10 s) and 2/2 (1 s), 2 s to the
deadline, configured reps 3, zero delay, and the first random pick
choosing the 10 s file: the 10 s file does not fit, the retry picks the
1 s file which fits two reps (`findReps = 2 ≥ 1`), yet the returned
Play carries `Reps = 0` because the retry's rep count was assigned to a
shadowing variable. -/
theorem pickCarefully_shadowing_bug :
    (FSet.pickCarefully ⟨[⟨1, 1, 10⟩, ⟨2, 2, 1⟩]⟩ 2 0 3 0 0 0 0).reps = 0 ∧
    (FSet.pickCarefully ⟨[⟨1, 1, 10⟩, ⟨2, 2, 1⟩]⟩ 2 0 3 0 0 0 0).file = ⟨2, 2, 1⟩ ∧
    findReps ⟨2, 2, 1⟩ 2 0 0 = 2 := by
  have h10 : findReps ⟨1, 1, 10⟩ 2 0 0 = 0 := by
    simp only [findReps]
    norm_num
  have h1 : findReps ⟨2, 2, 1⟩ 2 0 0 = 2 := by
    simp only [findReps]
    norm_num
  have hd1 : decide ((10 : ℚ) < 2) = false := by norm_num
  have hd2 : decide ((1 : ℚ) < 2) = true := by norm_num
  refine ⟨?_, ?_, h1⟩ <;>
    simp [FSet.pickCarefully, pickf, h10, h1, hd1, hd2, List.filter, Play.zero]

/- ===================================================================
   internal/device (device.go): timestamp bookkeeping of Enqueue and
   Execute.  Timestamps are nanosecond counts (`ℤ`); the Go map
   `map[string]time.Time` returns the zero time for missing keys,
   modelled by the default value `0`.
   =================================================================== -/

/-- The timestamp names used with `SetTimestamp`/`GetTimestamp`
(device.go constants plus the `lastPing` key written by the Ping
request). -/
inductive TsKey where
  | creation
  | endOfAdmin
  | endOfLight
  | endOfSound
  | lastFailure
  | lastSuccess
  | nextExecute
  | lastPing
deriving DecidableEq

/-- The device's timestamp map.  A key that was never set reads as `0`,
matching the Go zero `time.Time`. -/
def TsMap := TsKey → ℤ

/-- `Device.SetTimestamp`. -/
def setTs (m : TsMap) (k : TsKey) (v : ℤ) : TsMap :=
  fun k' => if k' = k then v else m k'

/-- Request types (`device.RequestType`). -/
inductive RequestType where
  | sound
  | light
  | admin
deriving DecidableEq

/-- The end-of-type timestamp selected by `req.Type()` in
`Device.Enqueue`. -/
def endStampKey : RequestType → TsKey
  | .sound => .endOfSound
  | .light => .endOfLight
  | .admin => .endOfAdmin

/-- `device.EnqueueDeadline`. -/
inductive EnqueueDeadline where
  | fromNow
  | fromEnd
deriving DecidableEq

/-- The timestamp bookkeeping of `Device.Enqueue` (device.go lines
114-151): choose the end stamp by request type, compute `earliest`,
and conditionally write the stamp.  Returns the updated map and the
`earliest` value pushed into the TimedHeap with the request.  NOTE:
the source compares `endTime.Before(thisEndTime)` but then stores
`endTime` (the value it just read, or `now` when the stamp was unset)
rather than `thisEndTime`; the model reproduces that store. -/
def enqueueStamp (m : TsMap) (ty : RequestType) (dur : ℤ)
    (now delay : ℤ) (fromWhen : EnqueueDeadline) : TsMap × ℤ :=
  let key := endStampKey ty
  let earliest0 := now
  let endTime0 := m key
  let endTime := if endTime0 = 0 then earliest0 else endTime0
  let earliest :=
    match fromWhen with
    | .fromNow => earliest0 + delay
    | .fromEnd => endTime + delay
  let thisEndTime := earliest + dur
  let m' := if endTime < thisEndTime then setTs m key endTime else m
  (m', earliest)

/-- The all-unset timestamp map of a fresh device. -/
def tsEmpty : TsMap := fun _ => 0

/-- C2 (code bug): on a fresh device at `now = 5`, enqueueing a Sound
request of duration 10 (`FromNow`, zero delay) stores `5` into
`endOfSound` — the `earliest` the code read before adding the duration
— not `max(endStamp, earliest + Duration) = 15` as the spec states;
and a second enqueue of duration 10 still leaves the stamp at `5`, so
the stamp never advances past its first value. -/
theorem enqueue_endstamp_not_advanced :
    (enqueueStamp tsEmpty .sound 10 5 0 .fromNow).1 .endOfSound = 5 ∧
    (enqueueStamp (enqueueStamp tsEmpty .sound 10 5 0 .fromNow).1
        .sound 10 20 0 .fromNow).1 .endOfSound = 5 ∧
    (5 : ℤ) ≠ max 0 (5 + 10) := by
  refine ⟨?_, ?_, by decide⟩ <;> rfl

/-- Pacing interval after each `Execute` HTTP round trip
(`postGetURLDelay`, 30 ms in nanoseconds). -/
def postGetURLDelay : ℤ := 30000000

/-- Outcome of the HTTP call inside `Device.Execute`: success, or any
failure (request construction, transport, body read, or status > 299,
which all route through `getURLFailure`). -/
inductive ExecOutcome where
  | success
  | failure
deriving DecidableEq

/-- The timestamp effect of `Device.Execute` (device.go lines 163-224).
`now` is the time taken when the outcome is recorded (`time.Now()` in
`getURLFailure`, or `t := time.Now()` on success); `ctxCancelled` is
whether `ctx.Err() != nil` at the failure.  On failure the source sets
`nextExecute` to `ls.Add(postGetURLDelay)` where `ls` is the stored
`lastSuccess` — not to `now + postGetURLDelay`. -/
def executeStamps (m : TsMap) (outcome : ExecOutcome)
    (ctxCancelled : Bool) (now : ℤ) : TsMap :=
  match outcome with
  | .success =>
      setTs (setTs m .lastSuccess now) .nextExecute (now + postGetURLDelay)
  | .failure =>
      let ls := m .lastSuccess
      if ctxCancelled then m
      else setTs (setTs m .lastFailure now) .nextExecute (ls + postGetURLDelay)

/-- C6 counterexample: a fresh device (lastSuccess unset, i.e. the zero
time) fails an Execute at `now = 10^9` with a live context; the code
sets `nextExecute` to `lastSuccess + 30 ms = 3·10^7`, not to
`now + 30 ms = 10^9 + 3·10^7` as the claim states. -/
theorem execute_nextExecute_counterexample :
    executeStamps tsEmpty .failure false 1000000000 .nextExecute = 30000000 ∧
    (30000000 : ℤ) ≠ 1000000000 + 30000000 := by
  exact ⟨rfl, by decide⟩

/-- C6 (amended): on success, `lastSuccess := now` and
`nextExecute := now + 30 ms`; on failure with a live context,
`lastFailure := now` and `nextExecute := lastSuccess + 30 ms` (the
stored last-success time, not `now`); on failure with a cancelled
context nothing is updated; and no key outside
`{lastSuccess, lastFailure, nextExecute}` is ever changed. -/
theorem execute_stamps_spec (m : TsMap) (now : ℤ) :
    (executeStamps m .success false now .lastSuccess = now ∧
     executeStamps m .success false now .nextExecute = now + postGetURLDelay) ∧
    (executeStamps m .failure false now .lastFailure = now ∧
     executeStamps m .failure false now .nextExecute = m .lastSuccess + postGetURLDelay) ∧
    executeStamps m .failure true now = m ∧
    (∀ k : TsKey, k ≠ .lastSuccess → k ≠ .lastFailure → k ≠ .nextExecute →
      ∀ o c, executeStamps m o c now k = m k) := by
  refine ⟨⟨rfl, rfl⟩, ⟨?_, rfl⟩, rfl, ?_⟩
  · simp [executeStamps, setTs]
  · intro k h1 h2 h3 o c
    cases o with
    | success => simp [executeStamps, setTs, h1, h3]
    | failure =>
        cases c with
        | true => rfl
        | false => simp [executeStamps, setTs, h2, h3]

/-- Witness for C6's amended theorem: the frame condition evaluated at
the `creation` key on the empty map. -/
theorem execute_stamps_spec_witness :
    executeStamps tsEmpty .failure false 7 TsKey.creation = tsEmpty TsKey.creation := by
  exact (execute_stamps_spec tsEmpty 7).2.2.2 .creation
    (by decide) (by decide) (by decide) .failure false

/- ===================================================================
   internal/weightedset (weightedset.go): weighted random permutation.
   The `random func() float64` handed to `New` is modelled as a stream
   of rationals with a cursor (`Rng`).
   =================================================================== -/

/-- An oracle for `math/rand`-style generators: a stream of rationals
and a cursor. -/
structure Rng where
  draws : ℕ → ℚ
  idx : ℕ

/-- Draw the next value from the oracle. -/
def Rng.next (g : Rng) : ℚ × Rng :=
  (g.draws g.idx, ⟨g.draws, g.idx + 1⟩)

/-- `weightedset.WeightedSet`: members with their weights, and the
running sum maintained by `Add`. -/
structure WeightedSet (T : Type) where
  members : List (T × ℚ)
  sum : ℚ

/-- `weightedset.New` (the randomizer is supplied at draw time in this
model). -/
def wsNew {T : Type} : WeightedSet T := ⟨[], 0⟩

/-- `WeightedSet.Add`: zero-weight members are dropped. -/
def WeightedSet.add {T : Type} (ws : WeightedSet T) (item : T) (weight : ℚ) :
    WeightedSet T :=
  if weight = 0 then ws
  else ⟨ws.members ++ [(item, weight)], ws.sum + weight⟩

/-- `WeightedSet.Len`. -/
def WeightedSet.len {T : Type} (ws : WeightedSet T) : ℕ := ws.members.length

/-- The inner scan of `WeightedSet.Slice`: accumulate `running += w`
and pick the first member at which `running < pick` fails.  Returns the
prefix before the pick, the picked member, and the suffix after it
(Go removes the pick with `append(unchosen[:idx], unchosen[idx+1:]...)`,
i.e. keeps `prefix ++ suffix`). -/
def selectSplit {T : Type} (pick : ℚ) :
    ℚ → List (T × ℚ) → Option (List (T × ℚ) × (T × ℚ) × List (T × ℚ))
  | _, [] => none
  | running, x :: rest =>
    let running' := running + x.2
    if running' < pick then
      match selectSplit pick running' rest with
      | none => none
      | some (pre, y, suf) => some (x :: pre, y, suf)
    else some ([], x, rest)

/-- The outer loop of `WeightedSet.Slice`.  Each iteration draws once
and scans; on a pick the member moves to `chosen` and its weight leaves
`sum`.  The Go loop runs `for len(unchosen) > 0`; a pass that picks
nothing (possible only for weights or draws outside the ranges the
theorems below assume) makes no progress, so the model bounds the
number of draws by `fuel`. -/
def sliceAux {T : Type} : ℕ → List (T × ℚ) → ℚ → List T → Rng → List T × Rng
  | 0, _, _, chosen, g => (chosen, g)
  | fuel + 1, unchosen, sum, chosen, g =>
    if unchosen.isEmpty then (chosen, g)
    else
      let rg := g.next
      let pick := rg.1 * sum
      match selectSplit pick 0 unchosen with
      | none => sliceAux fuel unchosen sum chosen rg.2
      | some (pre, x, suf) =>
          sliceAux fuel (pre ++ suf) (sum - x.2) (chosen ++ [x.1]) rg.2

/-- `WeightedSet.Slice`: stable-sort the members by decreasing weight
(`slices.SortStableFunc` with `-cmp.Compare(a.weight, b.weight)`), then
repeatedly draw a weighted pick until no member is left. -/
def WeightedSet.slice {T : Type} (ws : WeightedSet T) (g : Rng) : List T × Rng :=
  let unchosen := ws.members.mergeSort (fun a b => decide (b.2 ≤ a.2))
  sliceAux unchosen.length unchosen ws.sum [] g

/-- A weighted set built by a sequence of `Add` calls, as in the claim
"built by Add calls". -/
def wsOfAddList {T : Type} (l : List (T × ℚ)) : WeightedSet T :=
  l.foldl (fun ws xw => ws.add xw.1 xw.2) wsNew

theorem selectSplit_some_eq {T : Type} (pick : ℚ) :
    ∀ (l : List (T × ℚ)) (running : ℚ) pre x suf,
      selectSplit pick running l = some (pre, x, suf) → l = pre ++ x :: suf := by
  intro l
  induction l with
  | nil => intro running pre x suf h; simp [selectSplit] at h
  | cons a rest ih =>
      intro running pre x suf h
      simp only [selectSplit] at h
      by_cases hlt : running + a.2 < pick
      · simp only [hlt, if_pos] at h
        cases hrec : selectSplit pick (running + a.2) rest with
        | none => rw [hrec] at h; exact absurd h (by simp)
        | some v =>
            obtain ⟨pre', y', suf'⟩ := v
            rw [hrec] at h
            simp only [Option.some.injEq, Prod.mk.injEq] at h
            obtain ⟨h1, h2, h3⟩ := h
            subst h1; subst h2; subst h3
            have := ih (running + a.2) pre' y' suf' hrec
            simp [this]
      · simp only [hlt, if_neg, not_false_iff, Option.some.injEq, Prod.mk.injEq] at h
        obtain ⟨h1, h2, h3⟩ := h
        subst h1; subst h2; subst h3
        rfl

theorem selectSplit_isSome {T : Type} (pick : ℚ) :
    ∀ (l : List (T × ℚ)) (running : ℚ), l ≠ [] →
      pick ≤ running + (l.map Prod.snd).sum → (selectSplit pick running l).isSome := by
  intro l
  induction l with
  | nil => intro running h; exact absurd rfl h
  | cons a rest ih =>
      intro running _ hle
      simp only [selectSplit]
      by_cases hlt : running + a.2 < pick
      · have hne : rest ≠ [] := by
          rintro rfl
          simp at hle
          exact absurd (lt_of_lt_of_le hlt hle) (lt_irrefl _)
        have hle' : pick ≤ running + a.2 + (rest.map Prod.snd).sum := by
          simp only [List.map_cons, List.sum_cons] at hle
          linarith
        have := ih (running + a.2) hne hle'
        simp only [hlt, if_pos]
        cases hrec : selectSplit pick (running + a.2) rest with
        | none => rw [hrec] at this; simp at this
        | some v => obtain ⟨pre, y, suf⟩ := v; simp
      · simp [hlt]

theorem sliceAux_perm {T : Type} :
    ∀ (fuel : ℕ) (unchosen : List (T × ℚ)) (sum : ℚ) (chosen : List T) (g : Rng),
      fuel = unchosen.length →
      (∀ x ∈ unchosen, 0 < x.2) →
      sum = (unchosen.map Prod.snd).sum →
      (∀ n, 0 ≤ g.draws n ∧ g.draws n < 1) →
      ((sliceAux fuel unchosen sum chosen g).1).Perm (chosen ++ unchosen.map Prod.fst) := by
  intro fuel
  induction fuel with
  | zero =>
      intro unchosen sum chosen g hlen _ _ _
      have hemp : unchosen = [] := by
        cases unchosen with
        | nil => rfl
        | cons a l => simp at hlen
      subst hemp
      simp [sliceAux]
  | succ fuel ih =>
      intro unchosen sum chosen g hlen hpos hsum hg
      have hne : unchosen ≠ [] := by rintro rfl; simp at hlen
      have hsumpos : 0 < sum := by
        rw [hsum]
        refine List.sum_pos _ ?_ ?_
        · intro w hw
          obtain ⟨x, hx, rfl⟩ := List.mem_map.mp hw
          exact hpos x hx
        · simpa using hne
      set r := g.draws g.idx with hr
      have hr0 : 0 ≤ r := (hg g.idx).1
      have hr1 : r < 1 := (hg g.idx).2
      have hpick : r * sum < sum := by
        calc r * sum < 1 * sum := by exact mul_lt_mul_of_pos_right hr1 hsumpos
        _ = sum := one_mul sum
      have hsome := selectSplit_isSome (r * sum) unchosen 0 hne
        (by rw [← hsum]; linarith)
      obtain ⟨⟨pre, x, suf⟩, hsel⟩ := Option.isSome_iff_exists.mp hsome
      have hdecomp : unchosen = pre ++ x :: suf :=
        selectSplit_some_eq (r * sum) unchosen 0 pre x suf hsel
      have hstep :
          sliceAux (fuel + 1) unchosen sum chosen g =
          sliceAux fuel (pre ++ suf) (sum - x.2) (chosen ++ [x.1]) ⟨g.draws, g.idx + 1⟩ := by
        simp only [sliceAux, List.isEmpty_iff, hne, if_neg, not_false_iff, Rng.next, ← hr,
          hsel]
      have hlen' : fuel = (pre ++ suf).length := by
        rw [hdecomp] at hlen
        simp at hlen
        simp [hlen]
        omega
      have hpos' : ∀ y ∈ pre ++ suf, 0 < y.2 := by
        intro y hy
        refine hpos y ?_
        rw [hdecomp]
        rcases List.mem_append.mp hy with h | h
        · exact List.mem_append.mpr (Or.inl h)
        · exact List.mem_append.mpr (Or.inr (List.mem_cons_of_mem _ h))
      have hsum' : sum - x.2 = ((pre ++ suf).map Prod.snd).sum := by
        rw [hsum, hdecomp]
        simp
        ring
      have hg' : ∀ n, 0 ≤ (Rng.mk g.draws (g.idx + 1)).draws n ∧
          (Rng.mk g.draws (g.idx + 1)).draws n < 1 := hg
      have hih := ih (pre ++ suf) (sum - x.2) (chosen ++ [x.1])
        ⟨g.draws, g.idx + 1⟩ hlen' hpos' hsum' hg'
      rw [hstep]
      refine hih.trans ?_
      rw [hdecomp]
      have h1 : (chosen ++ [x.1]) ++ (pre ++ suf).map Prod.fst =
          chosen ++ x.1 :: ((pre.map Prod.fst) ++ (suf.map Prod.fst)) := by
        simp
      rw [h1]
      refine List.Perm.append_left chosen ?_
      simp only [List.map_append, List.map_cons]
      exact List.perm_middle.symm

theorem wsFold_spec {T : Type} :
    ∀ (l : List (T × ℚ)) (ws : WeightedSet T), (∀ x ∈ l, x.2 ≠ 0) →
      (l.foldl (fun ws xw => ws.add xw.1 xw.2) ws).members = ws.members ++ l ∧
      (l.foldl (fun ws xw => ws.add xw.1 xw.2) ws).sum =
        ws.sum + (l.map Prod.snd).sum := by
  intro l
  induction l with
  | nil => intro ws _; simp
  | cons a rest ih =>
      intro ws h
      have ha : a.2 ≠ 0 := h a (List.mem_cons_self a rest)
      have hrest : ∀ x ∈ rest, x.2 ≠ 0 := fun x hx => h x (List.mem_cons_of_mem a hx)
      have := ih (ws.add a.1 a.2) hrest
      simp only [List.foldl_cons]
      refine ⟨?_, ?_⟩
      · rw [this.1]
        simp [WeightedSet.add, ha]
      · rw [this.2]
        simp [WeightedSet.add, ha]
        ring

/-- C9: a WeightedSet built by `Add` calls with positive weights, with
any randomizer drawing in `[0, 1)`, yields from `Slice()` a
permutation of the added members: each added member appears exactly
once and the length equals `Len()`. -/
theorem weightedset_slice_perm {T : Type} (l : List (T × ℚ)) (g : Rng)
    (hw : ∀ x ∈ l, 0 < x.2) (hg : ∀ n, 0 ≤ g.draws n ∧ g.draws n < 1) :
    ((wsOfAddList l).slice g).1.Perm (l.map Prod.fst) ∧
    ((wsOfAddList l).slice g).1.length = (wsOfAddList l).len := by
  have hne : ∀ x ∈ l, x.2 ≠ 0 := fun x hx => ne_of_gt (hw x hx)
  have hspec := wsFold_spec l wsNew hne
  have hmem : (wsOfAddList l).members = l := by
    simpa [wsOfAddList, wsNew] using hspec.1
  have hsum : (wsOfAddList l).sum = (l.map Prod.snd).sum := by
    simpa [wsOfAddList, wsNew] using hspec.2
  set sorted := (wsOfAddList l).members.mergeSort (fun a b => decide (b.2 ≤ a.2))
    with hsorted
  have hperm : sorted.Perm l := by
    rw [hsorted, hmem]
    exact List.mergeSort_perm l _
  have hpos' : ∀ x ∈ sorted, 0 < x.2 := fun x hx => hw x (hperm.mem_iff.mp hx)
  have hsum' : (wsOfAddList l).sum = (sorted.map Prod.snd).sum := by
    rw [hsum]
    exact ((hperm.map Prod.snd).sum_eq).symm
  have hmain := sliceAux_perm sorted.length sorted ((wsOfAddList l).sum) [] g rfl
    hpos' hsum' hg
  have hslice : (wsOfAddList l).slice g =
      sliceAux sorted.length sorted ((wsOfAddList l).sum) [] g := rfl
  have hp : ((wsOfAddList l).slice g).1.Perm (l.map Prod.fst) := by
    rw [hslice]
    refine hmain.trans ?_
    simpa using hperm.map Prod.fst
  refine ⟨hp, ?_⟩
  rw [hp.length_eq]
  simp [WeightedSet.len, hmem]

/-- Witness for C9: two members with weights 1 and 2, the constant-zero
randomizer. -/
theorem weightedset_slice_perm_witness :
    ((wsOfAddList [((0 : ℕ), (1 : ℚ)), (1, 2)]).slice ⟨fun _ => 0, 0⟩).1.Perm [0, 1] ∧
    ((wsOfAddList [((0 : ℕ), (1 : ℚ)), (1, 2)]).slice ⟨fun _ => 0, 0⟩).1.length =
      (wsOfAddList [((0 : ℕ), (1 : ℚ)), (1, 2)]).len := by
  have := weightedset_slice_perm [((0 : ℕ), (1 : ℚ)), (1, 2)] ⟨fun _ => 0, 0⟩
    (by intro x hx; fin_cases hx <;> norm_num)
    (by intro n; norm_num)
  simpa using this

/- ===================================================================
   internal/random (random.go) and lease.New (lease.go, second
   document): the default FleetFraction variable.
   =================================================================== -/

/-- `random.Distribution`. -/
inductive Distribution where
  | unknown
  | normal
  | uniform
deriving DecidableEq

/-- `random.Delta`: per-second drift of mean/variance for a while. -/
structure Delta where
  meanDeltaRate : ℚ
  varDeltaRate : ℚ
  duration : ℚ
deriving DecidableEq

/-- `random.Config`. -/
structure RandomConfig where
  mean : ℚ
  variance : ℚ
  distribution : Distribution
  changes : List Delta
  repeatChanges : Bool
deriving DecidableEq

/-- Modelled from the spec: `random.Config.IsDefault`, called by
`lease.New`, is not among the sources; per the spec a `FleetFraction`
left unspecified in the config is the zero-valued `random.Config`. -/
def RandomConfig.isDefault (c : RandomConfig) : Bool :=
  c = ⟨0, 0, .unknown, [], false⟩

/-- The default fleet-fraction config substituted by `lease.New` when
`FleetFraction` is unspecified: `Mean: 50.0, Variance: 20.0,
Distribution: random.Normal` (lease.go). -/
def leaseDefaultFleetFraction : RandomConfig :=
  ⟨50, 20, .normal, [], false⟩

/-- The fleet-fraction config compiled by `lease.New`. -/
def leaseNewFleetFraction (ff : RandomConfig) : RandomConfig :=
  if ff.isDefault then leaseDefaultFleetFraction else ff

/-- The value computation at the end of `random.Variable.Float64`:
`value := mean`, plus a distribution-dependent term — for Normal,
`rand.NormFloat64() * sqrt(max(variance, 0))`, here the oracle
`noise` — and the result is `max(value, 0)`: clamped below at zero
only. -/
def variableFloat64 (mean noise : ℚ) : ℚ := max (mean + noise) 0

/-- C7 counterexample: for an unspecified FleetFraction the compiled
default has mean 50 (not 0.5), and the draw with a zero Gaussian noise
term evaluates to 50, which exceeds 1 — the draw is not clamped to
`[0, 1]`. -/
theorem fleetFraction_default_counterexample :
    (leaseNewFleetFraction ⟨0, 0, .unknown, [], false⟩).mean = 50 ∧
    (50 : ℚ) ≠ 1 / 2 ∧
    variableFloat64 (leaseNewFleetFraction ⟨0, 0, .unknown, [], false⟩).mean 0 = 50 ∧
    ¬ variableFloat64 (leaseNewFleetFraction ⟨0, 0, .unknown, [], false⟩).mean 0 ≤ 1 := by
  refine ⟨rfl, by norm_num, ?_, ?_⟩ <;>
    norm_num [variableFloat64, leaseNewFleetFraction, leaseDefaultFleetFraction,
      RandomConfig.isDefault]

/-- C7 (amended): when FleetFraction is unspecified, `lease.New`
compiles the default variable `Normal(mean = 50.0, variance = 20.0)`,
and each draw is clamped below at `0` (`max(value, 0)`); no clamp to
`[0, 1]` is applied. -/
theorem fleetFraction_default_spec (ff : RandomConfig) (noise : ℚ)
    (h : ff.isDefault = true) :
    leaseNewFleetFraction ff = ⟨50, 20, .normal, [], false⟩ ∧
    0 ≤ variableFloat64 (leaseNewFleetFraction ff).mean noise := by
  constructor
  · simp [leaseNewFleetFraction, h, leaseDefaultFleetFraction]
  · exact le_max_right _ _

/-- Witness for C7's amended theorem at the zero config and zero
noise. -/
theorem fleetFraction_default_spec_witness :
    RandomConfig.isDefault ⟨0, 0, .unknown, [], false⟩ = true ∧
    leaseNewFleetFraction ⟨0, 0, .unknown, [], false⟩ = ⟨50, 20, .normal, [], false⟩ ∧
    0 ≤ variableFloat64 (leaseNewFleetFraction ⟨0, 0, .unknown, [], false⟩).mean 0 := by
  have hd : RandomConfig.isDefault ⟨0, 0, .unknown, [], false⟩ = true := by
    simp [RandomConfig.isDefault]
  have := fleetFraction_default_spec ⟨0, 0, .unknown, [], false⟩ 0 hd
  exact ⟨hd, this.1, this.2⟩

/- ===================================================================
   internal/sound (nonrandom.go): the order in which `nonrandom.Run`
   plays the files of its fileset.
   =================================================================== -/

/-- The comparator passed to `sort.Slice` in `nonrandom.Run`:
`if set[i].Folder < set[j].Folder { return true }; return set[i].File < set[j].File`.
Note it compares `File` fields even when the folders are NOT equal. -/
def nonrandomLess (a b : File) : Bool :=
  if a.folder < b.folder then true else decide (a.file < b.file)

/-- One step of Go's insertion sort: bubble `x` leftward through the
already-sorted prefix (held in reverse, most recent first), swapping
while `less(x, prev)`. -/
def bubbleIn {α : Type} (less : α → α → Bool) (x : α) : List α → List α
  | [] => [x]
  | y :: rest => if less x y then y :: bubbleIn less x rest else x :: y :: rest

/-- Go's `sort.Slice` on a short slice (pdqsort runs plain insertion
sort for lengths up to 12, which covers the inputs used below). -/
def goSortSlice {α : Type} (less : α → α → Bool) (l : List α) : List α :=
  (l.foldl (fun acc x => bubbleIn less x acc) []).reverse

/-- The sequence of Play commands `nonrandom.Run` enqueues: the fileset
sorted with the comparator above, one Play per file with `Reps: 1` and
zero delay/jitter, each enqueued via `client.EnqueueAfterDelay(..., 0)`
which uses `device.FromNow`. -/
def nonrandomOrder (files : List File) : List Play :=
  (goSortSlice nonrandomLess files).map (fun f => ⟨f, 1, 0, 0⟩)

/-- C8 (code bug): for the fileset of files 1/5 and 2/1, the code plays
2/1 before 1/5, although folder 1 < folder 2 means 1/5 must come first
in ascending (Folder, File) order; the comparator even reports both
`less(1/5, 2/1)` and `less(2/1, 1/5)` as true, because it falls back to
comparing File numbers when the folders differ. -/
theorem nonrandom_order_bug :
    nonrandomOrder [⟨1, 5, 1⟩, ⟨2, 1, 1⟩] =
      [⟨⟨2, 1, 1⟩, 1, 0, 0⟩, ⟨⟨1, 5, 1⟩, 1, 0, 0⟩] ∧
    nonrandomLess ⟨1, 5, 1⟩ ⟨2, 1, 1⟩ = true ∧
    nonrandomLess ⟨2, 1, 1⟩ ⟨1, 5, 1⟩ = true := by
  refine ⟨?_, by decide, by decide⟩
  simp [nonrandomOrder, goSortSlice, bubbleIn, nonrandomLess]

/- ===================================================================
   internal/types (id.go, the implementation embedded in id_test.go's
   second document): the idSet producer/consumer.
   =================================================================== -/

/-- Device IDs (`types.ID`). -/
abbrev DevID := String

/-- The `idSet` state.  The Go `listeners []chan ID` only matters here
through how often each channel has been `close()`d, recorded in
`listenerCloses` (one entry per listener, in registration order); the
unused Go field `clientCount` is omitted. -/
structure IdSetState where
  ids : List DevID
  closed : Bool
  listenerCloses : List ℕ
deriving DecidableEq

/-- A fresh producer (`NewIDSetProducer`). -/
def idSetNew : IdSetState := ⟨[], false, []⟩

/-- `idSet.Size`. -/
def IdSetState.size (s : IdSetState) : ℕ := s.ids.length

/-- `idSet.Add`: returns false and changes nothing if the set is
closed; otherwise appends the ids and reports success (the sends to
listener channels do not change this state). -/
def IdSetState.addIds (s : IdSetState) (new : List DevID) : Bool × IdSetState :=
  if s.closed then (false, s)
  else (true, { s with ids := s.ids ++ new })

/-- `idSet.Close`: a no-op when already closed; otherwise marks the set
closed and closes every listener channel once. -/
def IdSetState.closeSet (s : IdSetState) : IdSetState :=
  if s.closed then s
  else { s with closed := true, listenerCloses := s.listenerCloses.map (· + 1) }

/-- The listener registration performed at the top of `idSet.Launch`. -/
def IdSetState.newListener (s : IdSetState) : IdSetState :=
  { s with listenerCloses := s.listenerCloses ++ [0] }

/-- `idSet.Snapshot`. -/
def IdSetState.snapshot (s : IdSetState) : List DevID := s.ids

/-- The state-changing operations of the idSet. -/
inductive IdSetOp where
  | add (ids : List DevID)
  | close
  | launch

/-- Apply one operation (`Add` discards the success flag here). -/
def IdSetState.applyOp (s : IdSetState) : IdSetOp → IdSetState
  | .add ids => (s.addIds ids).2
  | .close => s.closeSet
  | .launch => s.newListener

/-- The state after a sequence of operations on a fresh producer. -/
def runIdSetOps (ops : List IdSetOp) : IdSetState :=
  ops.foldl IdSetState.applyOp idSetNew

theorem idSetOps_listener_inv :
    ∀ (ops : List IdSetOp) (s : IdSetState),
      (∀ n ∈ s.listenerCloses, n ≤ 1 ∧ (s.closed = false → n = 0)) →
      ∀ n ∈ (ops.foldl IdSetState.applyOp s).listenerCloses,
        n ≤ 1 ∧ ((ops.foldl IdSetState.applyOp s).closed = false → n = 0) := by
  intro ops
  induction ops with
  | nil => intro s h; simpa using h
  | cons op rest ih =>
      intro s h
      refine ih (s.applyOp op) ?_
      cases op with
      | add ids =>
          intro n hn
          by_cases hc : s.closed
          · simpa [IdSetState.applyOp, IdSetState.addIds, hc] using h n
              (by simpa [IdSetState.applyOp, IdSetState.addIds, hc] using hn)
          · simpa [IdSetState.applyOp, IdSetState.addIds, hc] using h n
              (by simpa [IdSetState.applyOp, IdSetState.addIds, hc] using hn)
      | close =>
          intro n hn
          by_cases hc : s.closed
          · simpa [IdSetState.applyOp, IdSetState.closeSet, hc] using h n
              (by simpa [IdSetState.applyOp, IdSetState.closeSet, hc] using hn)
          · simp only [IdSetState.applyOp, IdSetState.closeSet, hc, if_neg,
              Bool.false_eq_true, not_false_iff] at hn ⊢
            obtain ⟨m, hm, rfl⟩ := List.mem_map.mp hn
            have hm0 := (h m hm).2 (by simpa using hc)
            refine ⟨by omega, fun hfalse => ?_⟩
            simp [IdSetState.applyOp, IdSetState.closeSet, hc] at hfalse
      | launch =>
          intro n hn
          simp only [IdSetState.applyOp, IdSetState.newListener] at hn
          rcases List.mem_append.mp hn with hmem | hmem
          · exact ⟨(h n hmem).1, fun hc => (h n hmem).2 (by simpa using hc)⟩
          · simp at hmem
            omega

/-- C10: once the producer is closed, `Add` returns false and leaves
the membership unchanged (`Snapshot` is unchanged), a second `Close` is
a no-op, and over any operation sequence from a fresh producer no
listener channel is ever closed more than once. -/
theorem idset_closed_semantics (s : IdSetState) (ids : List DevID)
    (h : s.closed = true) :
    s.addIds ids = (false, s) ∧
    (s.addIds ids).2.snapshot = s.snapshot ∧
    (∀ s' : IdSetState, s'.closeSet.closeSet = s'.closeSet) ∧
    (∀ ops : List IdSetOp, ∀ n ∈ (runIdSetOps ops).listenerCloses, n ≤ 1) := by
  refine ⟨?_, ?_, ?_, ?_⟩
  · simp [IdSetState.addIds, h]
  · simp [IdSetState.addIds, h]
  · intro s'
    by_cases hc : s'.closed
    · simp [IdSetState.closeSet, hc]
    · simp [IdSetState.closeSet, hc]
  · intro ops n hn
    exact (idSetOps_listener_inv ops idSetNew (by simp [idSetNew]) n hn).1

/-- Witness for C10 at a concrete closed producer. -/
theorem idset_closed_semantics_witness :
    (IdSetState.mk ["x"] true [1]).closed = true ∧
    (IdSetState.mk ["x"] true [1]).addIds ["y"] = (false, ⟨["x"], true, [1]⟩) := by
  refine ⟨rfl, ?_⟩
  exact (idset_closed_semantics ⟨["x"], true, [1]⟩ ["y"] rfl).1

/- ===================================================================
   internal/timedheap (the implementation embedded in
   timedheap_test.go's second document): the worker protocol of
   TimedHeap.thread, as a labelled transition system.

   The worker loop alternates between an idle phase — selecting among
   an Add on `in`, the `ready()` timer (which fires once the clock
   reaches the earliest readyAt in the heap), and Stop — and a
   delivery phase holding one popped message, racing `out <- popped`
   against a fresh Add (in which case both messages are pushed back).
   `container/heap` pops a specific minimal-readyAt element; the
   `fire` step below permits any minimal element, which includes the
   real pop.  The clock only moves forward.  Stop discards state and
   is irrelevant to the delivered sequence, so it has no step.
   =================================================================== -/

/-- A message in the heap: the item with its readyAt time. -/
structure TimedMsg where
  item : ℕ
  readyAt : ℤ
deriving DecidableEq

/-- A delivery that happened on the output channel: the item, its
readyAt, and the clock value at the moment the consumer accepted it. -/
structure Delivery where
  item : ℕ
  readyAt : ℤ
  time : ℤ
deriving DecidableEq

/-- The worker state: heap contents, the popped message racing
delivery (if any), the clock, and the trace of deliveries so far. -/
structure THState where
  heap : List TimedMsg
  pending : Option TimedMsg
  now : ℤ
  outputs : List Delivery
deriving DecidableEq

/-- One transition of the TimedHeap worker. -/
inductive THStep : THState → THState → Prop
  /-- An `Add` received while idle: push onto the heap. -/
  | add (s : THState) (m : TimedMsg) (h : s.pending = none) :
      THStep s ⟨m :: s.heap, none, s.now, s.outputs⟩
  /-- An `Add` wins the delivery race: push both the new message and
  the popped one back and return to the idle loop. -/
  | addRace (s : THState) (p m : TimedMsg) (h : s.pending = some p) :
      THStep s ⟨m :: p :: s.heap, none, s.now, s.outputs⟩
  /-- Time passes. -/
  | tick (s : THState) (t : ℤ) (h : s.now ≤ t) :
      THStep s ⟨s.heap, s.pending, t, s.outputs⟩
  /-- `ready()` fires for the earliest message and it is popped. -/
  | fire (s : THState) (m : TimedMsg) (h : s.pending = none) (hm : m ∈ s.heap)
      (hmin : ∀ y ∈ s.heap, m.readyAt ≤ y.readyAt) (hnow : m.readyAt ≤ s.now) :
      THStep s ⟨s.heap.erase m, some m, s.now, s.outputs⟩
  /-- The consumer accepts the popped message on `out`. -/
  | deliver (s : THState) (m : TimedMsg) (h : s.pending = some m) :
      THStep s ⟨s.heap, none, s.now, s.outputs ++ [⟨m.item, m.readyAt, s.now⟩]⟩

/-- States reachable from a fresh `TimedHeap` after `Start`. -/
inductive THReach : THState → Prop
  | init : THReach ⟨[], none, 0, []⟩
  | step {s s' : THState} : THReach s → THStep s s' → THReach s'

/-- The delivered sequence is non-decreasing in readyAt. -/
def outputsOrdered (l : List Delivery) : Prop :=
  l.Chain' (fun a b => a.readyAt ≤ b.readyAt)

/-- C1 counterexample: Add(2, t=2); clock to 2; item 2 delivered; then
Add(1, t=1) (a readyAt in the past is valid) and item 1 delivered.
The interleaved run is legal, every item was delivered no earlier than
its readyAt, yet the output sequence has readyAt 2 followed by
readyAt 1 — not non-decreasing. -/
theorem timedheap_order_counterexample :
    THReach ⟨[], none, 2, [⟨2, 2, 2⟩, ⟨1, 1, 2⟩]⟩ ∧
    ¬ outputsOrdered [⟨2, 2, 2⟩, ⟨1, 1, 2⟩] := by
  constructor
  · have h0 : THReach ⟨[], none, 0, []⟩ := THReach.init
    have h1 : THReach ⟨[⟨2, 2⟩], none, 0, []⟩ :=
      h0.step (THStep.add _ ⟨2, 2⟩ rfl)
    have h2 : THReach ⟨[⟨2, 2⟩], none, 2, []⟩ :=
      h1.step (THStep.tick _ 2 (by decide))
    have he2 : ([⟨2, 2⟩] : List TimedMsg).erase ⟨2, 2⟩ = [] := by decide
    have h3 : THReach ⟨[], some ⟨2, 2⟩, 2, []⟩ := by
      have := h2.step (THStep.fire _ ⟨2, 2⟩ rfl (by decide) (by decide) (by decide))
      rwa [he2] at this
    have h4 : THReach ⟨[], none, 2, [⟨2, 2, 2⟩]⟩ := by
      have := h3.step (THStep.deliver _ ⟨2, 2⟩ rfl)
      simpa using this
    have h5 : THReach ⟨[⟨1, 1⟩], none, 2, [⟨2, 2, 2⟩]⟩ :=
      h4.step (THStep.add _ ⟨1, 1⟩ rfl)
    have he1 : ([⟨1, 1⟩] : List TimedMsg).erase ⟨1, 1⟩ = [] := by decide
    have h6 : THReach ⟨[], some ⟨1, 1⟩, 2, [⟨2, 2, 2⟩]⟩ := by
      have := h5.step (THStep.fire _ ⟨1, 1⟩ rfl (by decide) (by decide) (by decide))
      rwa [he1] at this
    have h7 := h6.step (THStep.deliver _ ⟨1, 1⟩ rfl)
    simpa using h7
  · simp [outputsOrdered]

/-- C1 (amended): in every reachable state, every delivered item was
delivered no earlier than its own readyAt, and any popped message
racing delivery has a readyAt that the clock has already reached and
that is minimal among the messages still in the heap (so deliveries of
items simultaneously pending are in non-decreasing readyAt order); but
the full output sequence need not be globally non-decreasing, since an
Add after a delivery may carry an earlier readyAt. -/
theorem timedheap_delivery_sound (s : THState) (h : THReach s) :
    (∀ d ∈ s.outputs, d.readyAt ≤ d.time) ∧
    (∀ m : TimedMsg, s.pending = some m →
      m.readyAt ≤ s.now ∧ ∀ y ∈ s.heap, m.readyAt ≤ y.readyAt) := by
  induction h with
  | init => simp
  | step hr hstep ih =>
      cases hstep with
      | add m h =>
          exact ⟨ih.1, by intro m' hm'; simp at hm'⟩
      | addRace p m h =>
          exact ⟨ih.1, by intro m' hm'; simp at hm'⟩
      | tick t hle =>
          refine ⟨ih.1, ?_⟩
          intro m hm
          have := ih.2 m hm
          exact ⟨le_trans this.1 hle, this.2⟩
      | fire m h hm hmin hnow =>
          refine ⟨ih.1, ?_⟩
          intro m' hm'
          simp only [Option.some.injEq] at hm'
          subst hm'
          exact ⟨hnow, fun y hy => hmin y (List.mem_of_mem_erase hy)⟩
      | deliver m h =>
          refine ⟨?_, by intro m' hm'; simp at hm'⟩
          intro d hd
          rcases List.mem_append.mp hd with hold | hnew
          · exact ih.1 d hold
          · have := (ih.2 m h).1
            simp at hnew
            subst hnew
            exact this

/-- Witness for C1's amended theorem at the initial state. -/
theorem timedheap_delivery_sound_witness :
    (∀ d ∈ (THState.mk [] none 0 []).outputs, d.readyAt ≤ d.time) ∧
    (∀ m : TimedMsg, (THState.mk [] none 0 []).pending = some m →
      m.readyAt ≤ (THState.mk [] none 0 []).now ∧
      ∀ y ∈ (THState.mk [] none 0 []).heap, m.readyAt ≤ y.readyAt) :=
  timedheap_delivery_sound ⟨[], none, 0, []⟩ THReach.init

/- ===================================================================
   internal/lease (part of lease.go: the broker, second document of
   the file): broker state, addClient, returnClients, and the helper
   passes.  The per-lease `fleetFraction` Variable draw and the
   `leaseRandomizer` draws both come from the `Rng` oracle.  Go map
   writes are modelled by prepending to an association list (lookup
   finds the newest binding).  `Holder.Run` is an external callback
   and is represented only by the `started` flag it is guarded by.
   =================================================================== -/

/-- `types.PhysLocation` (currently an empty struct). -/
structure PhysLocation where
deriving DecidableEq

/-- The fields of a compiled `Lease` used by the broker (`Type` and
`name` only route and label; the `fleetFraction` Variable is drawn
from the oracle). -/
structure LeaseData where
  weight : ℚ
  minClients : ℤ
  maxClients : ℤ
  maxFleetFraction : ℚ
deriving DecidableEq

/-- The broker-side `holder` record. -/
structure HolderState where
  lease : LeaseData
  is : Option IdSetState
  targetFraction : ℚ
  targetClientCount : ℤ
  initTime : ℤ
  started : Bool
  disabled : Bool
deriving DecidableEq

/-- `staleHolderTime = 5 * time.Minute`, in nanoseconds. -/
def staleHolderTime : ℤ := 300000000000

/-- `holder.init`: fresh producer, zero target count, new fraction. -/
def HolderState.init (h : HolderState) (frac : ℚ) (now : ℤ) : HolderState :=
  { h with is := some idSetNew, targetClientCount := 0, targetFraction := frac,
           initTime := now, started := false }

/-- `holder.setTargetCount`: a decrease is a programming error
(`panicf`), modelled as `none`. -/
def HolderState.setTargetCount (h : HolderState) (newCount : ℤ) :
    Option HolderState :=
  if newCount = h.targetClientCount then some h
  else if newCount < h.targetClientCount then none
  else some { h with targetClientCount := newCount }

/-- `holder.isDormant`. -/
def HolderState.isDormant (h : HolderState) : Bool :=
  h.targetClientCount == 0 && !h.disabled

/-- `holder.isStale`. -/
def HolderState.isStale (h : HolderState) (now : ℤ) : Bool :=
  h.isDormant && decide (staleHolderTime < now - h.initTime)

/-- `holder.isClosed`. -/
def HolderState.isClosed (h : HolderState) : Bool :=
  match h.is with
  | none => false
  | some s => s.closed

/-- `holder.clientsWanted`. -/
def HolderState.clientsWanted (h : HolderState) : ℤ :=
  match h.is with
  | none => 0
  | some s => h.targetClientCount - (s.size : ℤ)

/-- `holder.reset`. -/
def HolderState.reset (h : HolderState) (now : ℤ) : HolderState :=
  { h with is := none, targetFraction := 0, targetClientCount := 0,
           initTime := now, started := false }

/-- `holder.addClients`: `is.Add` may refuse (closed); on success, if
the holder was not yet started and the producer size reaches
`minClients`, it starts (`Holder.Run(producer.NewConsumer())` runs
externally).  A `nil` producer would be a nil-interface dereference in
Go, modelled as `none`. -/
def HolderState.addClients (h : HolderState) (clients : List DevID) :
    Option (Bool × HolderState) :=
  match h.is with
  | none => none
  | some s =>
      let r := s.addIds clients
      if !r.1 then some (false, h)
      else
        let h' := { h with is := some r.2 }
        if !h'.started && h'.lease.minClients ≤ (r.2.size : ℤ) then
          some (true, { h' with started := true })
        else some (true, h')

/-- The broker state. -/
structure BrokerState where
  started : Bool
  locations : List (DevID × PhysLocation)
  leased : List (DevID × Bool)
  unallocated : List DevID
  fleetSize : ℤ
  leasedCount : ℤ
  leasedFraction : ℚ
  holders : List HolderState

/-- `newBroker()`. -/
def brokerNew : BrokerState := ⟨false, [], [], [], 0, 0, 0, []⟩

/-- `fullyLeasedFraction = 0.9999`. -/
def fullyLeasedFraction : ℚ := 9999 / 10000

/-- Go `int(math.Round(x))`: round half away from zero. -/
def goRound (x : ℚ) : ℤ := if 0 ≤ x then ⌊x + 1 / 2⌋ else ⌈x - 1 / 2⌉

/-- `broker.cleanHolders`: reset every closed or stale holder and give
its fraction back. -/
def brokerCleanHolders (b : BrokerState) (now : ℤ) : BrokerState :=
  let r := b.holders.foldl
    (fun (acc : List HolderState × ℚ) h =>
      if h.isClosed || h.isStale now then
        (acc.1 ++ [h.reset now], acc.2 - h.targetFraction)
      else (acc.1 ++ [h], acc.2))
    ([], b.leasedFraction)
  { b with holders := r.1, leasedFraction := r.2 }

/-- Build the weighted set over holder indices, as the broker loops
`for _, h := range b.holders { if p(h) { ws.Add(h, h.Lease.weight) } }`
(indices stand for the `*holder` pointers). -/
def wsOfHolders (hs : List HolderState) (p : HolderState → Bool) : WeightedSet ℕ :=
  (List.range hs.length).foldl
    (fun ws i =>
      match hs[i]? with
      | some h => if p h then ws.add i h.lease.weight else ws
      | none => ws)
    wsNew

/-- The allocation loop of `broker.updateLeasedFraction`: draw each
chosen holder's `fleetFraction`, clamp by `MaxFleetFraction` when set,
`init` the holder, add to `leasedFraction`, and stop once fully
leased. -/
def ulfLoop (now : ℤ) : List ℕ → BrokerState → Rng → BrokerState × Rng
  | [], b, g => (b, g)
  | i :: rest, b, g =>
      match b.holders[i]? with
      | none => (b, g)
      | some h =>
          let rg := g.next
          let frac0 := rg.1
          let frac :=
            if 0 < h.lease.maxFleetFraction then min frac0 h.lease.maxFleetFraction
            else frac0
          let b' := { b with holders := b.holders.set i (h.init frac now),
                             leasedFraction := b.leasedFraction + frac }
          if fullyLeasedFraction ≤ b'.leasedFraction then (b', rg.2)
          else ulfLoop now rest b' rg.2

/-- `broker.updateLeasedFraction`. -/
def brokerUpdateLF (b : BrokerState) (now : ℤ) (g : Rng) : BrokerState × Rng :=
  if fullyLeasedFraction ≤ b.leasedFraction then (b, g)
  else
    let sg := (wsOfHolders b.holders HolderState.isDormant).slice g
    ulfLoop now sg.1 b sg.2

/-- The per-holder loop of `broker.updateTargetCount`:
`target := int(math.Round(targetFraction * fleetSize))`, capped by
`MaxClients` when set; `setTargetCount` may panic. -/
def utcLoop : List HolderState → ℚ → Option (List HolderState)
  | [], _ => some []
  | h :: rest, fleetSize =>
      let target0 := goRound (h.targetFraction * fleetSize)
      let target :=
        if 0 < h.lease.maxClients then min target0 h.lease.maxClients else target0
      match h.setTargetCount target with
      | none => none
      | some h' =>
          match utcLoop rest fleetSize with
          | none => none
          | some rest' => some (h' :: rest')

/-- `broker.updateTargetCount`. -/
def brokerUpdateTC (b : BrokerState) : Option BrokerState :=
  match utcLoop b.holders (b.fleetSize : ℚ) with
  | none => none
  | some hs => some { b with holders := hs }

/-- The allocation loop of `broker.assignClients`: give each chosen
holder `min(clientsWanted, available)` clients from the front of
`unallocated`; a refusing (closed) holder is reset and its fraction
returned; stop when nothing is left.  A count outside the slice bounds
would be a Go slice panic (`none`); it cannot arise from the broker's
own call sites. -/
def acLoop (now : ℤ) : List ℕ → ℤ → BrokerState → Option BrokerState
  | [], _, b => some b
  | i :: rest, available, b =>
      match b.holders[i]? with
      | none => none
      | some h =>
          let count := min h.clientsWanted available
          if count < 0 ∨ (b.unallocated.length : ℤ) < count then none
          else
            let clients := b.unallocated.take count.toNat
            match h.addClients clients with
            | none => none
            | some (ok, h') =>
                if !ok then
                  acLoop now rest available
                    { b with leasedFraction := b.leasedFraction - h.targetFraction,
                             holders := b.holders.set i (h.reset now) }
                else
                  let b' := { b with
                    holders := b.holders.set i h',
                    leasedCount := b.leasedCount + count,
                    unallocated := b.unallocated.drop count.toNat,
                    leased := clients.foldl (fun m c => (c, true) :: m) b.leased }
                  if available - count = 0 then some b'
                  else acLoop now rest (available - count) b'

/-- `broker.assignClients`: asserts
`fleetSize − leasedCount == len(unallocated)` (Fatalf otherwise), then
runs the weighted-order allocation loop. -/
def brokerAssignClients (b : BrokerState) (now : ℤ) (g : Rng) :
    Option (BrokerState × Rng) :=
  let available := (b.unallocated.length : ℤ)
  if b.fleetSize - b.leasedCount ≠ available then none
  else if available = 0 then some (b, g)
  else
    let ws := wsOfHolders b.holders (fun h => 0 < h.clientsWanted)
    if ws.len = 0 then some (b, g)
    else
      let sg := ws.slice g
      match acLoop now sg.1 available b with
      | none => none
      | some b' => some (b', sg.2)

/-- `broker.addClient`: duplicate ids are fatal; otherwise record the
location, append to unallocated, grow the fleet, and run the three
passes.  (The `leased` map is only written by `assignClients`.) -/
def brokerAddClient (b : BrokerState) (id : DevID) (loc : PhysLocation)
    (now : ℤ) (g : Rng) : Option (BrokerState × Rng) :=
  let b1 := { b with started := true }
  if (b1.leased.lookup id).isSome then none
  else
    let b2 := { b1 with locations := (id, loc) :: b1.locations,
                        unallocated := b1.unallocated ++ [id],
                        fleetSize := b1.fleetSize + 1 }
    let bg := brokerUpdateLF b2 now g
    match brokerUpdateTC bg.1 with
    | none => none
    | some b3 => brokerAssignClients b3 now bg.2

/-- The per-id loop of `broker.returnClients`: unknown ids and ids not
marked leased are fatal; each returned id decrements `leasedCount` and
rejoins `unallocated`.  (The source does not set `leased[id]` back to
false here.) -/
def returnLoop : BrokerState → List DevID → Option BrokerState
  | b, [] => some b
  | b, id :: rest =>
      match b.leased.lookup id with
      | none => none
      | some false => none
      | some true =>
          returnLoop { b with leasedCount := b.leasedCount - 1,
                              unallocated := b.unallocated ++ [id] } rest

/-- `broker.returnClients`. -/
def brokerReturnClients (b : BrokerState) (ids : List DevID) (now : ℤ)
    (g : Rng) : Option (BrokerState × Rng) :=
  match returnLoop b ids with
  | none => none
  | some b1 =>
      let b2 := brokerCleanHolders b1 now
      let bg := brokerUpdateLF b2 now g
      match brokerUpdateTC bg.1 with
      | none => none
      | some b3 => brokerAssignClients b3 now bg.2

/-- Lease conservation: `fleetSize == leasedCount + |unallocated|`. -/
def brokerInv (b : BrokerState) : Prop :=
  b.fleetSize = b.leasedCount + (b.unallocated.length : ℤ)

theorem ulfLoop_counts (now : ℤ) :
    ∀ (order : List ℕ) (b : BrokerState) (g : Rng),
      (ulfLoop now order b g).1.fleetSize = b.fleetSize ∧
      (ulfLoop now order b g).1.leasedCount = b.leasedCount ∧
      (ulfLoop now order b g).1.unallocated = b.unallocated := by
  intro order
  induction order with
  | nil => intro b g; exact ⟨rfl, rfl, rfl⟩
  | cons i rest ih =>
      intro b g
      cases hidx : b.holders[i]? with
      | none => simp [ulfLoop, hidx]
      | some h =>
          simp only [ulfLoop, hidx]
          refine ⟨?_, ?_, ?_⟩
          · split <;> split
            all_goals first | rfl | exact (ih _ _).1
          · split <;> split
            all_goals first | rfl | exact (ih _ _).2.1
          · split <;> split
            all_goals first | rfl | exact (ih _ _).2.2

theorem brokerUpdateLF_counts (b : BrokerState) (now : ℤ) (g : Rng) :
    (brokerUpdateLF b now g).1.fleetSize = b.fleetSize ∧
    (brokerUpdateLF b now g).1.leasedCount = b.leasedCount ∧
    (brokerUpdateLF b now g).1.unallocated = b.unallocated := by
  simp only [brokerUpdateLF]
  split
  · exact ⟨rfl, rfl, rfl⟩
  · exact ulfLoop_counts now _ b _

theorem brokerUpdateTC_counts (b b' : BrokerState)
    (h : brokerUpdateTC b = some b') :
    b'.fleetSize = b.fleetSize ∧ b'.leasedCount = b.leasedCount ∧
    b'.unallocated = b.unallocated := by
  simp only [brokerUpdateTC] at h
  cases hu : utcLoop b.holders (b.fleetSize : ℚ) with
  | none => rw [hu] at h; exact absurd h (by simp)
  | some hs =>
      rw [hu] at h
      simp only [Option.some.injEq] at h
      subst h
      exact ⟨rfl, rfl, rfl⟩

theorem acLoop_inv (now : ℤ) :
    ∀ (order : List ℕ) (available : ℤ) (b b' : BrokerState),
      acLoop now order available b = some b' → brokerInv b → brokerInv b' := by
  intro order
  induction order with
  | nil =>
      intro available b b' h hinv
      simp only [acLoop, Option.some.injEq] at h
      subst h
      exact hinv
  | cons i rest ih =>
      intro available b b' h hinv
      simp only [acLoop] at h
      cases hidx : b.holders[i]? with
      | none => rw [hidx] at h; exact absurd h (by simp)
      | some hh =>
          rw [hidx] at h
          simp only at h
          by_cases hguard :
              min hh.clientsWanted available < 0 ∨
              (b.unallocated.length : ℤ) < min hh.clientsWanted available
          · rw [if_pos hguard] at h; exact absurd h (by simp)
          · rw [if_neg hguard] at h
            push_neg at hguard
            obtain ⟨hc0, hclen⟩ := hguard
            cases hadd : hh.addClients
                (b.unallocated.take (min hh.clientsWanted available).toNat) with
            | none => rw [hadd] at h; exact absurd h (by simp)
            | some okh =>
                rw [hadd] at h
                obtain ⟨ok, h2⟩ := okh
                simp only at h
                by_cases hok : ok = false
                · subst hok
                  simp only [Bool.not_false, if_pos] at h
                  refine ih available _ b' h ?_
                  simpa [brokerInv] using hinv
                · have hok' : ok = true := by
                    cases ok
                    · exact absurd rfl hok
                    · rfl
                  subst hok'
                  simp only [Bool.not_true, Bool.false_eq_true, if_neg,
                    not_false_iff] at h
                  set cnt := min hh.clientsWanted available with hcnt
                  have hlen : ((b.unallocated.drop cnt.toNat).length : ℤ) =
                      (b.unallocated.length : ℤ) - cnt := by
                    rw [List.length_drop]
                    have h1 : cnt.toNat ≤ b.unallocated.length := by omega
                    have h2 : (cnt.toNat : ℤ) = cnt := Int.toNat_of_nonneg hc0
                    omega
                  have hinv' : brokerInv
                      { b with
                        holders := b.holders.set i h2,
                        leasedCount := b.leasedCount + cnt,
                        unallocated := b.unallocated.drop cnt.toNat,
                        leased := (b.unallocated.take cnt.toNat).foldl
                          (fun m c => (c, true) :: m) b.leased } := by
                    simp only [brokerInv] at hinv ⊢
                    simp only [hlen]
                    omega
                  by_cases hav : available - cnt = 0
                  · rw [if_pos hav] at h
                    simp only [Option.some.injEq] at h
                    subst h
                    exact hinv'
                  · rw [if_neg hav] at h
                    exact ih (available - cnt) _ b' h hinv'

theorem brokerAssignClients_inv (b : BrokerState) (now : ℤ) (g : Rng)
    (b' : BrokerState) (g' : Rng)
    (h : brokerAssignClients b now g = some (b', g')) : brokerInv b' := by
  simp only [brokerAssignClients] at h
  by_cases hchk : b.fleetSize - b.leasedCount ≠ (b.unallocated.length : ℤ)
  · rw [if_pos hchk] at h; exact absurd h (by simp)
  · rw [if_neg hchk] at h
    push_neg at hchk
    have hinv : brokerInv b := by simp only [brokerInv]; omega
    by_cases hav : (b.unallocated.length : ℤ) = 0
    · rw [if_pos hav] at h
      simp only [Option.some.injEq, Prod.mk.injEq] at h
      obtain ⟨h1, _⟩ := h
      subst h1
      exact hinv
    · rw [if_neg hav] at h
      by_cases hws : (wsOfHolders b.holders (fun h => 0 < h.clientsWanted)).len = 0
      · rw [if_pos hws] at h
        simp only [Option.some.injEq, Prod.mk.injEq] at h
        obtain ⟨h1, _⟩ := h
        subst h1
        exact hinv
      · rw [if_neg hws] at h
        cases hac : acLoop now
            ((wsOfHolders b.holders (fun h => 0 < h.clientsWanted)).slice g).1
            (b.unallocated.length : ℤ) b with
        | none => rw [hac] at h; exact absurd h (by simp)
        | some b2 =>
            rw [hac] at h
            simp only [Option.some.injEq, Prod.mk.injEq] at h
            obtain ⟨h1, _⟩ := h
            subst h1
            exact acLoop_inv now _ _ b b2 hac hinv

/-- C3: starting from a newly created broker, the conservation
invariant `fleetSize == leasedCount + |unallocated|` holds initially
and is preserved by every completing broker operation: `addClient` of
a fresh id, `returnClients` of currently-leased ids, and any
`assignClients` pass. -/
theorem broker_lease_conservation :
    brokerInv brokerNew ∧
    (∀ (b : BrokerState) (id : DevID) (loc : PhysLocation) (now : ℤ) (g : Rng)
       (b' : BrokerState) (g' : Rng),
       brokerInv b → b.leased.lookup id = none →
       brokerAddClient b id loc now g = some (b', g') → brokerInv b') ∧
    (∀ (b : BrokerState) (ids : List DevID) (now : ℤ) (g : Rng)
       (b' : BrokerState) (g' : Rng),
       brokerInv b → (∀ id ∈ ids, b.leased.lookup id = some true) →
       brokerReturnClients b ids now g = some (b', g') → brokerInv b') ∧
    (∀ (b : BrokerState) (now : ℤ) (g : Rng) (b' : BrokerState) (g' : Rng),
       brokerAssignClients b now g = some (b', g') → brokerInv b') := by
  refine ⟨by simp [brokerInv, brokerNew], ?_, ?_, ?_⟩
  · intro b id loc now g b' g' _ _ h
    simp only [brokerAddClient] at h
    split at h
    · exact absurd h (by simp)
    · cases htc : brokerUpdateTC (brokerUpdateLF _ now g).1 with
      | none => rw [htc] at h; exact absurd h (by simp)
      | some b3 =>
          rw [htc] at h
          exact brokerAssignClients_inv b3 now _ b' g' h
  · intro b ids now g b' g' _ _ h
    simp only [brokerReturnClients] at h
    cases hr : returnLoop b ids with
    | none => rw [hr] at h; exact absurd h (by simp)
    | some b1 =>
        rw [hr] at h
        simp only at h
        cases htc : brokerUpdateTC
            (brokerUpdateLF (brokerCleanHolders b1 now) now g).1 with
        | none => rw [htc] at h; exact absurd h (by simp)
        | some b3 =>
            rw [htc] at h
            exact brokerAssignClients_inv b3 now _ b' g' h
  · intro b now g b' g' h
    exact brokerAssignClients_inv b now g b' g' h

/-- Witness for C3: one arrival on a fresh broker, one return of a
leased client on a one-client broker, and an assignClients pass on the
fresh broker, each completing with the invariant intact. -/
theorem broker_lease_conservation_witness :
    brokerInv brokerNew ∧
    brokerInv (⟨true, [("a", ⟨⟩)], [], ["a"], 1, 0, 0, []⟩ : BrokerState) ∧
    brokerInv (⟨true, [], [("a", true)], ["a"], 1, 0, 0, []⟩ : BrokerState) := by
  obtain ⟨h0, hadd, hret, hassign⟩ := broker_lease_conservation
  have hq : ¬ (fullyLeasedFraction ≤ (0 : ℚ)) := by norm_num [fullyLeasedFraction]
  refine ⟨h0, ?_, ?_⟩
  · refine hadd brokerNew "a" ⟨⟩ 0 ⟨fun _ => 0, 0⟩
      ⟨true, [("a", ⟨⟩)], [], ["a"], 1, 0, 0, []⟩ ⟨fun _ => 0, 0⟩ h0 rfl ?_
    simp [brokerAddClient, brokerNew, brokerUpdateLF, brokerUpdateTC,
      brokerAssignClients, wsOfHolders, WeightedSet.slice, wsNew, utcLoop,
      ulfLoop, sliceAux, WeightedSet.len, hq]
  · refine hret ⟨true, [], [("a", true)], [], 1, 1, 0, []⟩ ["a"] 0 ⟨fun _ => 0, 0⟩
      ⟨true, [], [("a", true)], ["a"], 1, 0, 0, []⟩ ⟨fun _ => 0, 0⟩
      (by simp [brokerInv]) (by simp [List.lookup]) ?_
    simp [brokerReturnClients, returnLoop, brokerCleanHolders, brokerUpdateLF,
      brokerUpdateTC, brokerAssignClients, wsOfHolders, WeightedSet.slice, wsNew,
      utcLoop, ulfLoop, sliceAux, WeightedSet.len, hq, List.lookup]
